import Mathlib

/-!
# MSP430 blink-LED firmware (`code/msp430-blink-led/main.c`)

A small-step embedding of `main`: one step per C statement, the three memory-mapped
registers and the loop counter as machine integers (`Nat` reduced modulo the width),
and a log of the memory accesses each statement performs.
-/

namespace Msp430Blink

/-! ## Data model -/

/-- The two constants `main` takes from `<msp430g2553.h>`, which is not among the
sources: they are parameters of the embedding. -/
structure Header where
  WDTPW : Nat
  WDTHOLD : Nat
deriving DecidableEq

/-- Modelled from the spec: the device header `<msp430g2553.h>` is missing from the
sources; the watchdog password is `0x5A00` and the hold bit is `0x0080`. -/
def msp430g2553 : Header := ⟨0x5A00, 0x0080⟩

/-- Modelled from the spec: the declaration of `WDTCTL` is in the missing header and the
width of `unsigned int` is fixed by the target; both are 16 bits on the MSP430. -/
def WORD : Nat := 16

/-- Modelled from the spec: the declarations of the port registers `P1DIR` and `P1OUT`
are in the missing header; both are 8 bits wide. -/
def BYTE : Nat := 8

/-- The locations `main` names: three memory-mapped registers and the local `i`. -/
inductive Loc where
  | WDTCTL
  | P1DIR
  | P1OUT
  | i
deriving DecidableEq

/-- One memory access: the location and the value read or written. -/
inductive Event where
  | read (l : Loc) (v : Nat)
  | write (l : Loc) (v : Nat)
deriving DecidableEq

/-- Control points of `main`, one per statement, and the closing brace of `main`. -/
inductive PC where
  | wdt     -- line 4:  WDTCTL = WDTPW + WDTHOLD;
  | dir     -- line 5:  P1DIR = 0x01;
  | toggle  -- line 9:  P1OUT ^= 0x01;
  | init    -- line 10: i = 50000;
  | dec     -- line 11: do (i--);
  | test    -- line 12: while (i != 0);
  | ret     -- line 14: closing brace of main
deriving DecidableEq

/-- Machine state: the control point and the content of the four locations. -/
structure State where
  pc : PC
  WDTCTL : Nat
  P1DIR : Nat
  P1OUT : Nat
  i : Nat
deriving DecidableEq

/-- Entry of `main` with arbitrary content in the registers and in `i`. -/
def initial (w d o c : Nat) : State := ⟨PC.wdt, w, d, o, c⟩

/-! ## Operations -/

/-- The location of an access. -/
def Event.loc : Event → Loc
  | Event.read l _ => l
  | Event.write l _ => l

/-- Whether an access is a write. -/
def Event.isWrite : Event → Bool
  | Event.read _ _ => false
  | Event.write _ _ => true

/-- An access without its value: kind and location. -/
def Event.shape (e : Event) : Bool × Loc := (e.isWrite, e.loc)

/-- Number of writes to location `l` in a log. -/
def countWrites (l : Loc) (es : List Event) : Nat :=
  (es.filter (fun e => e.isWrite && decide (e.loc = l))).length

/-- Number of reads of location `l` in a log. -/
def countReads (l : Loc) (es : List Event) : Nat :=
  (es.filter (fun e => !e.isWrite && decide (e.loc = l))).length

/-- Number of toggles of the LED pin in a log: the writes to `P1OUT`. -/
def toggles (es : List Event) : Nat := countWrites Loc.P1OUT es

/-- One statement of `main`: the accesses it performs and the next state.
`none` only at the closing brace, where `main` would return. -/
def step (h : Header) (s : State) : Option (List Event × State) :=
  match s.pc with
  | PC.wdt =>
      let v := (h.WDTPW + h.WDTHOLD) % 2 ^ WORD
      some ([Event.write Loc.WDTCTL v], { s with pc := PC.dir, WDTCTL := v })
  | PC.dir =>
      let v := 0x01 % 2 ^ BYTE
      some ([Event.write Loc.P1DIR v], { s with pc := PC.toggle, P1DIR := v })
  | PC.toggle =>
      let v := (s.P1OUT ^^^ 0x01) % 2 ^ BYTE
      some ([Event.read Loc.P1OUT s.P1OUT, Event.write Loc.P1OUT v],
        { s with pc := PC.init, P1OUT := v })
  | PC.init =>
      let v := 50000 % 2 ^ WORD
      some ([Event.write Loc.i v], { s with pc := PC.dec, i := v })
  | PC.dec =>
      let v := (s.i + 2 ^ WORD - 1) % 2 ^ WORD
      some ([Event.read Loc.i s.i, Event.write Loc.i v], { s with pc := PC.test, i := v })
  | PC.test =>
      some ([Event.read Loc.i s.i],
        { s with pc := if s.i ≠ 0 then PC.dec else PC.toggle })
  | PC.ret => none

/-- Execute `n` statements from `s`: the log of accesses and the state reached,
or `none` if `main` returned before. -/
def run (h : Header) : Nat → State → Option (List Event × State)
  | 0, s => some ([], s)
  | n + 1, s =>
    match step h s with
    | none => none
    | some (es, s') =>
      match run h n s' with
      | none => none
      | some (es', s'') => some (es ++ es', s'')

/-- Number of statements of one pass through the `for` body: the toggle, the
assignment to `i`, and 50000 rounds of decrement and test. -/
def PERIOD : Nat := 2 + 2 * 50000

/-! ## Measures and invariants used in the proofs -/

/-- Statements still to execute before the delay loop is left. -/
def remaining (s : State) : Nat :=
  match s.pc with
  | PC.dec => if s.i = 0 then 2 * 2 ^ WORD else 2 * s.i
  | PC.test => 2 * s.i + 1
  | _ => 0

/-- Decrements still to execute before the delay loop is left. -/
def decsLeft (s : State) : Nat :=
  match s.pc with
  | PC.dec => if s.i = 0 then 2 ^ WORD else s.i
  | PC.test => s.i
  | _ => 0

/-- Number of decrements the delay loop performs when entered with `i = n`. -/
def spins (n : Nat) : Nat := if n = 0 then 2 ^ WORD else n

/-- Loop states: at the decrement or at the test, counter within 16 bits; or the
loop has just been left with the counter at zero. The other locations are as in `s0`. -/
def LoopInv (s0 s : State) : Prop :=
  s.WDTCTL = s0.WDTCTL ∧ s.P1DIR = s0.P1DIR ∧ s.P1OUT = s0.P1OUT ∧ s.i < 2 ^ WORD ∧
    (s.pc = PC.dec ∨ s.pc = PC.test ∨ (s.pc = PC.toggle ∧ s.i = 0))

/-- What holds of the log and the state once the two initial statements are done and
the `for` loop has been entered with `WDTCTL = v`, `P1DIR = m`, `P1OUT = o`. -/
def BodyInv (v m o : Nat) (es : List Event) (s : State) : Prop :=
  (s.pc = PC.toggle ∨ s.pc = PC.init ∨ s.pc = PC.dec ∨ s.pc = PC.test) ∧
  s.WDTCTL = v ∧ s.P1DIR = m ∧
  countWrites Loc.WDTCTL es = 0 ∧ countWrites Loc.P1DIR es = 0 ∧
  countReads Loc.WDTCTL es = 0 ∧ countReads Loc.P1DIR es = 0 ∧
  (o < 2 ^ BYTE → s.P1OUT = o ^^^ (toggles es % 2))

/-- Two states at the same statement, with the same counter where the counter is live. -/
def Sim (s1 s2 : State) : Prop :=
  s1.pc = s2.pc ∧ s1.pc ≠ PC.ret ∧ ((s1.pc = PC.dec ∨ s1.pc = PC.test) → s1.i = s2.i)

/-! ## General facts about `run` -/

theorem countWrites_append (l : Loc) (es es' : List Event) :
    countWrites l (es ++ es') = countWrites l es + countWrites l es' := by
  simp [countWrites]

theorem countReads_append (l : Loc) (es es' : List Event) :
    countReads l (es ++ es') = countReads l es + countReads l es' := by
  simp [countReads]

theorem toggles_append (es es' : List Event) :
    toggles (es ++ es') = toggles es + toggles es' := by
  simp [toggles, countWrites_append]

theorem run_one (h : Header) (s : State) (es : List Event) (s' : State)
    (hs : step h s = some (es, s')) : run h 1 s = some (es, s') := by
  simp [run, hs]

theorem run_add (h : Header) (a b : Nat) :
    ∀ (s s' s'' : State) (es es' : List Event),
      run h a s = some (es, s') → run h b s' = some (es', s'') →
      run h (a + b) s = some (es ++ es', s'') := by
  induction a with
  | zero =>
    intro s s' s'' es es' h1 h2
    simp [run] at h1
    obtain ⟨rfl, rfl⟩ := h1
    simpa using h2
  | succ a ih =>
    intro s s' s'' es es' h1 h2
    rw [Nat.add_right_comm]
    simp only [run] at h1 ⊢
    cases hst : step h s with
    | none => simp [hst] at h1
    | some p =>
      obtain ⟨e1, s1⟩ := p
      simp only [hst] at h1 ⊢
      cases hr : run h a s1 with
      | none => simp [hr] at h1
      | some q =>
        obtain ⟨e2, s2⟩ := q
        simp only [hr, Option.some.injEq, Prod.mk.injEq] at h1
        obtain ⟨rfl, rfl⟩ := h1
        rw [ih s1 s2 s'' e2 es' hr h2]
        simp

/-- Invariant rule: a property of (log, state) that holds initially and that every
statement both can execute from and preserves holds after any number of statements;
in particular the run never stops. -/
theorem run_invariant (h : Header) (P : List Event → State → Prop) (s0 : State)
    (h0 : P [] s0)
    (hstep : ∀ es s, P es s → ∃ es' s', step h s = some (es', s') ∧ P (es ++ es') s') :
    ∀ n, ∃ es s, run h n s0 = some (es, s) ∧ P es s := by
  intro n
  induction n with
  | zero => exact ⟨[], s0, rfl, h0⟩
  | succ n ih =>
    obtain ⟨es, s, hr, hP⟩ := ih
    obtain ⟨es', s', hs, hP'⟩ := hstep es s hP
    exact ⟨es ++ es', s', run_add h n 1 s0 s s' es es' hr (run_one h s es' s' hs), hP'⟩

/-! ## The statements one by one -/

theorem step_wdt (h : Header) (w d o c : Nat) :
    step h ⟨PC.wdt, w, d, o, c⟩ =
      some ([Event.write Loc.WDTCTL ((h.WDTPW + h.WDTHOLD) % 2 ^ WORD)],
        ⟨PC.dir, (h.WDTPW + h.WDTHOLD) % 2 ^ WORD, d, o, c⟩) := rfl

theorem step_dir (h : Header) (w d o c : Nat) :
    step h ⟨PC.dir, w, d, o, c⟩ =
      some ([Event.write Loc.P1DIR 1], ⟨PC.toggle, w, 1, o, c⟩) := rfl

theorem step_toggle (h : Header) (w d o c : Nat) :
    step h ⟨PC.toggle, w, d, o, c⟩ =
      some ([Event.read Loc.P1OUT o, Event.write Loc.P1OUT ((o ^^^ 1) % 2 ^ BYTE)],
        ⟨PC.init, w, d, (o ^^^ 1) % 2 ^ BYTE, c⟩) := rfl

theorem step_init (h : Header) (w d o c : Nat) :
    step h ⟨PC.init, w, d, o, c⟩ =
      some ([Event.write Loc.i 50000], ⟨PC.dec, w, d, o, 50000⟩) := rfl

theorem step_dec (h : Header) (w d o c : Nat) :
    step h ⟨PC.dec, w, d, o, c⟩ =
      some ([Event.read Loc.i c, Event.write Loc.i ((c + 2 ^ WORD - 1) % 2 ^ WORD)],
        ⟨PC.test, w, d, o, (c + 2 ^ WORD - 1) % 2 ^ WORD⟩) := rfl

theorem step_test (h : Header) (w d o c : Nat) :
    step h ⟨PC.test, w, d, o, c⟩ =
      some ([Event.read Loc.i c], ⟨if c ≠ 0 then PC.dec else PC.toggle, w, d, o, c⟩) := rfl

/-- The 16-bit decrement: zero wraps to 65535, anything else goes down by one. -/
theorem dec_word (c : Nat) (hc : c < 2 ^ WORD) :
    (c + 2 ^ WORD - 1) % 2 ^ WORD = if c = 0 then 2 ^ WORD - 1 else c - 1 := by
  simp only [WORD] at hc ⊢
  norm_num at hc ⊢
  split <;> omega

/-- The toggle of an 8-bit value stays within 8 bits. -/
theorem toggle_byte (v : Nat) (hv : v < 2 ^ BYTE) : (v ^^^ 1) % 2 ^ BYTE = v ^^^ 1 := by
  apply Nat.mod_eq_of_lt
  exact Nat.xor_lt_two_pow hv (by simp [BYTE])


/-! ## The delay loop -/

theorem loop_step (h : Header) (s0 s : State) (hinv : LoopInv s0 s)
    (hrem : 0 < remaining s) :
    ∃ es s', step h s = some (es, s') ∧ LoopInv s0 s' ∧
      remaining s' + 1 = remaining s ∧
      countWrites Loc.i es + decsLeft s' = decsLeft s ∧
      es.all (fun e => decide (e.loc = Loc.i)) = true := by
  obtain ⟨pc, w, d, o, c⟩ := s
  obtain ⟨hw, hd, ho, hc, hpc⟩ := hinv
  simp only at hw hd ho hpc hc
  have hdw := dec_word c hc
  have hlt : (c + 2 ^ WORD - 1) % 2 ^ WORD < 2 ^ WORD := Nat.mod_lt _ (by simp [WORD])
  rcases hpc with rfl | rfl | ⟨rfl, rfl⟩
  · refine ⟨_, _, step_dec h w d o c, ⟨hw, hd, ho, hlt, Or.inr (Or.inl rfl)⟩, ?_, ?_, ?_⟩
    · simp only [remaining]
      rw [hdw]
      by_cases hc0 : c = 0
      · simp [hc0, WORD]
      · simp only [hc0, if_false]
        omega
    · simp only [decsLeft]
      rw [hdw]
      by_cases hc0 : c = 0
      · simp [hc0, WORD, countWrites, Event.isWrite, Event.loc]
      · simp only [hc0, if_false]
        simp [countWrites, Event.isWrite, Event.loc]
        omega
    · simp [Event.loc]
  · refine ⟨_, _, step_test h w d o c, ⟨hw, hd, ho, hc, ?_⟩, ?_, ?_, ?_⟩
    · by_cases hc0 : c = 0
      · simp [hc0]
      · simp [hc0]
    · by_cases hc0 : c = 0
      · simp [remaining, hc0]
      · simp [remaining, hc0]
    · by_cases hc0 : c = 0
      · simp [decsLeft, countWrites, Event.isWrite, hc0]
      · simp [decsLeft, countWrites, Event.isWrite, hc0]
    · simp [Event.loc]
  · simp [remaining] at hrem

/-- Running the delay loop for `m` statements, `m` at most the number remaining. -/
theorem loop_run (h : Header) (s : State) (hinv : LoopInv s s) (m : Nat) :
    m ≤ remaining s →
    ∃ es s', run h m s = some (es, s') ∧ LoopInv s s' ∧
      remaining s' + m = remaining s ∧
      countWrites Loc.i es + decsLeft s' = decsLeft s ∧
      es.all (fun e => decide (e.loc = Loc.i)) = true := by
  induction m with
  | zero =>
    intro _
    exact ⟨[], s, rfl, hinv, by simp, by simp [countWrites], by simp⟩
  | succ m ih =>
    intro hm
    obtain ⟨es, s1, hr, hinv1, hrem1, hcnt1, hall1⟩ := ih (by omega)
    obtain ⟨es', s2, hs, hinv2, hrem2, hcnt2, hall2⟩ :=
      loop_step h s s1 hinv1 (by omega)
    refine ⟨es ++ es', s2, run_add h m 1 s s1 s2 es es' hr (run_one h s1 es' s2 hs),
      hinv2, by omega, ?_, ?_⟩
    · rw [countWrites_append]
      omega
    · rw [List.all_append, hall1, hall2]
      rfl

theorem remaining_pos_of_loop (s : State) (hpc : s.pc = PC.dec ∨ s.pc = PC.test) :
    0 < remaining s := by
  obtain ⟨pc, w, d, o, c⟩ := s
  simp only at hpc
  rcases hpc with rfl | rfl
  · simp only [remaining, WORD]
    split <;> omega
  · simp [remaining]

theorem LoopInv_exit (s0 s : State) (hinv : LoopInv s0 s) (hrem : remaining s = 0) :
    s.pc = PC.toggle ∧ s.i = 0 := by
  obtain ⟨_, _, _, _, hpc⟩ := hinv
  rcases hpc with hp | hp | hp
  · have := remaining_pos_of_loop s (Or.inl hp)
    omega
  · have := remaining_pos_of_loop s (Or.inr hp)
    omega
  · exact hp

theorem LoopInv_inside (s0 s : State) (hinv : LoopInv s0 s) (hrem : 0 < remaining s) :
    s.pc = PC.dec ∨ s.pc = PC.test := by
  obtain ⟨_, _, _, _, hpc⟩ := hinv
  rcases hpc with hp | hp | ⟨hp, _⟩
  · exact Or.inl hp
  · exact Or.inr hp
  · simp [remaining, hp] at hrem

theorem countWrites_of_all_i (es : List Event)
    (hall : es.all (fun e => decide (e.loc = Loc.i)) = true) (l : Loc) (hl : l ≠ Loc.i) :
    countWrites l es = 0 := by
  simp only [countWrites, List.length_eq_zero, List.filter_eq_nil_iff]
  intro e he
  have hloc : e.loc = Loc.i := by
    have := List.all_eq_true.mp hall e he
    simpa using this
  simp [hloc, Ne.symm hl]

theorem remaining_dec (w d o n : Nat) :
    remaining ⟨PC.dec, w, d, o, n⟩ = 2 * spins n := by
  simp only [remaining, spins]
  split <;> rfl

theorem loopInv_dec (w d o n : Nat) (hn : n < 2 ^ WORD) :
    LoopInv ⟨PC.dec, w, d, o, n⟩ ⟨PC.dec, w, d, o, n⟩ :=
  ⟨rfl, rfl, rfl, hn, Or.inl rfl⟩

/-- The whole delay loop, entered with `i = n`: it is left after `2 * spins n`
statements, `spins n` of them decrements, with `i = 0` and nothing else changed. -/
theorem delay_run (h : Header) (w d o n : Nat) (hn : n < 2 ^ WORD) :
    ∃ es, run h (2 * spins n) ⟨PC.dec, w, d, o, n⟩ = some (es, ⟨PC.toggle, w, d, o, 0⟩) ∧
      countWrites Loc.i es = spins n ∧
      es.all (fun e => decide (e.loc = Loc.i)) = true := by
  obtain ⟨es, s', hr, hinv, hrem, hcnt, hall⟩ :=
    loop_run h ⟨PC.dec, w, d, o, n⟩ (loopInv_dec w d o n hn) (2 * spins n)
      (by rw [remaining_dec])
  rw [remaining_dec] at hrem
  obtain ⟨hpc, hi⟩ := LoopInv_exit _ s' hinv (by omega)
  obtain ⟨hw, hd, ho, _, _⟩ := hinv
  obtain ⟨pc', w', d', o', c'⟩ := s'
  simp only at hpc hi hw hd ho
  subst hpc hi hw hd ho
  refine ⟨es, hr, ?_, hall⟩
  simpa [decsLeft, spins] using hcnt

/-- Before `2 * spins n` statements the delay loop has not been left, and the
counter stays within 16 bits. -/
theorem delay_inside (h : Header) (w d o n : Nat) (hn : n < 2 ^ WORD) (m : Nat)
    (hm : m < 2 * spins n) :
    ∃ es s', run h m ⟨PC.dec, w, d, o, n⟩ = some (es, s') ∧
      (s'.pc = PC.dec ∨ s'.pc = PC.test) ∧ s'.i < 2 ^ WORD := by
  obtain ⟨es, s', hr, hinv, hrem, _, _⟩ :=
    loop_run h ⟨PC.dec, w, d, o, n⟩ (loopInv_dec w d o n hn) m
      (by rw [remaining_dec]; omega)
  rw [remaining_dec] at hrem
  exact ⟨es, s', hr, LoopInv_inside _ s' hinv (by omega), hinv.2.2.2.1⟩

theorem spins_50000 : spins 50000 = 50000 := by
  simp [spins]

/-- One pass through the `for` body, from toggle to toggle. -/
theorem period_run (h : Header) (w d o c : Nat) :
    ∃ es, run h PERIOD ⟨PC.toggle, w, d, o, c⟩ =
        some (es, ⟨PC.toggle, w, d, (o ^^^ 1) % 2 ^ BYTE, 0⟩) ∧
      toggles es = 1 ∧ countWrites Loc.WDTCTL es = 0 ∧ countWrites Loc.P1DIR es = 0 := by
  obtain ⟨es, hr, _, hall⟩ :=
    delay_run h w d ((o ^^^ 1) % 2 ^ BYTE) 50000 (by simp [WORD])
  rw [spins_50000] at hr
  have h2 := run_add h 1 (2 * 50000) _ _ _ _ _
    (run_one h _ _ _ (step_init h w d ((o ^^^ 1) % 2 ^ BYTE) c)) hr
  have h3 := run_add h 1 (1 + 2 * 50000) _ _ _ _ _
    (run_one h _ _ _ (step_toggle h w d o c)) h2
  have z1 := countWrites_of_all_i es hall Loc.P1OUT (by decide)
  have z2 := countWrites_of_all_i es hall Loc.WDTCTL (by decide)
  have z3 := countWrites_of_all_i es hall Loc.P1DIR (by decide)
  refine ⟨_, h3, ?_, ?_, ?_⟩
  · rw [toggles, countWrites_append, countWrites_append, z1]
    rfl
  · rw [countWrites_append, countWrites_append, z2]
    rfl
  · rw [countWrites_append, countWrites_append, z3]
    rfl

/-! ## Invariants of the `for` loop -/

theorem countWrites_snoc (l : Loc) (es es' : List Event) (k j : Nat)
    (h1 : countWrites l es = k) (h2 : countWrites l es' = j) :
    countWrites l (es ++ es') = k + j := by
  rw [countWrites_append, h1, h2]

theorem countReads_snoc (l : Loc) (es es' : List Event) (k j : Nat)
    (h1 : countReads l es = k) (h2 : countReads l es' = j) :
    countReads l (es ++ es') = k + j := by
  rw [countReads_append, h1, h2]

/-- Flipping bit 0 moves the parity of the number of flips by one. -/
theorem xor_parity_succ (o t : Nat) : (o ^^^ (t % 2)) ^^^ 1 = o ^^^ ((t + 1) % 2) := by
  rcases Nat.mod_two_eq_zero_or_one t with ht | ht
  · have : (t + 1) % 2 = 1 := by omega
    rw [ht, this, Nat.xor_zero]
  · have : (t + 1) % 2 = 0 := by omega
    rw [ht, this, Nat.xor_assoc, Nat.xor_self]

theorem xor_parity_lt (o t : Nat) (ho : o < 2 ^ BYTE) : o ^^^ (t % 2) < 2 ^ BYTE := by
  apply Nat.xor_lt_two_pow ho
  have : t % 2 < 2 := Nat.mod_lt _ (by decide)
  simp only [BYTE]
  omega

theorem bodyInv_step (h : Header) (v m o : Nat) (es : List Event) (s : State)
    (hinv : BodyInv v m o es s) :
    ∃ es' s', step h s = some (es', s') ∧ BodyInv v m o (es ++ es') s' := by
  obtain ⟨pc, w, d, p, c⟩ := s
  obtain ⟨hpc, hw, hd, h1, h2, h3, h4, hp⟩ := hinv
  simp only at hpc hw hd hp
  subst hw hd
  rcases hpc with rfl | rfl | rfl | rfl
  · refine ⟨_, _, step_toggle h w d p c, Or.inr (Or.inl rfl), rfl, rfl,
      countWrites_snoc _ _ _ _ _ h1 rfl, countWrites_snoc _ _ _ _ _ h2 rfl,
      countReads_snoc _ _ _ _ _ h3 rfl, countReads_snoc _ _ _ _ _ h4 rfl, ?_⟩
    intro ho
    have hp' := hp ho
    have ht : toggles (es ++ [Event.read Loc.P1OUT p,
        Event.write Loc.P1OUT ((p ^^^ 1) % 2 ^ BYTE)]) = toggles es + 1 := by
      rw [toggles_append]
      rfl
    rw [ht]
    show (p ^^^ 1) % 2 ^ BYTE = o ^^^ ((toggles es + 1) % 2)
    rw [toggle_byte p (by rw [hp']; exact xor_parity_lt o _ ho), hp', xor_parity_succ]
  · refine ⟨_, _, step_init h w d p c, Or.inr (Or.inr (Or.inl rfl)), rfl, rfl,
      countWrites_snoc _ _ _ _ _ h1 rfl, countWrites_snoc _ _ _ _ _ h2 rfl,
      countReads_snoc _ _ _ _ _ h3 rfl, countReads_snoc _ _ _ _ _ h4 rfl, ?_⟩
    intro ho
    have ht : toggles (es ++ [Event.write Loc.i 50000]) = toggles es + 0 := by
      rw [toggles_append]
      rfl
    rw [ht]
    exact hp ho
  · refine ⟨_, _, step_dec h w d p c, Or.inr (Or.inr (Or.inr rfl)), rfl, rfl,
      countWrites_snoc _ _ _ _ _ h1 rfl, countWrites_snoc _ _ _ _ _ h2 rfl,
      countReads_snoc _ _ _ _ _ h3 rfl, countReads_snoc _ _ _ _ _ h4 rfl, ?_⟩
    intro ho
    have ht : toggles (es ++ [Event.read Loc.i c,
        Event.write Loc.i ((c + 2 ^ WORD - 1) % 2 ^ WORD)]) = toggles es + 0 := by
      rw [toggles_append]
      rfl
    rw [ht]
    exact hp ho
  · refine ⟨_, _, step_test h w d p c, ?_, rfl, rfl,
      countWrites_snoc _ _ _ _ _ h1 rfl, countWrites_snoc _ _ _ _ _ h2 rfl,
      countReads_snoc _ _ _ _ _ h3 rfl, countReads_snoc _ _ _ _ _ h4 rfl, ?_⟩
    · by_cases hc0 : c = 0
      · simp [hc0]
      · simp [hc0]
    · intro ho
      have ht : toggles (es ++ [Event.read Loc.i c]) = toggles es + 0 := by
        rw [toggles_append]
        rfl
      rw [ht]
      exact hp ho

/-- The invariant of the `for` loop holds after any number of statements. -/
theorem body_run (h : Header) (v m o c n : Nat) :
    ∃ es s, run h n ⟨PC.toggle, v, m, o, c⟩ = some (es, s) ∧ BodyInv v m o es s :=
  run_invariant h (BodyInv v m o) ⟨PC.toggle, v, m, o, c⟩
    ⟨Or.inl rfl, rfl, rfl, rfl, rfl, rfl, rfl, fun _ => (Nat.xor_zero o).symm⟩
    (bodyInv_step h v m o) n

/-- Any number of passes through the `for` body, counted in toggles. -/
theorem periods_run (h : Header) (w d : Nat) (n : Nat) :
    ∀ o c, ∃ es o' c', run h (PERIOD * n) ⟨PC.toggle, w, d, o, c⟩ =
        some (es, ⟨PC.toggle, w, d, o', c'⟩) ∧ toggles es = n := by
  induction n with
  | zero =>
    intro o c
    exact ⟨[], o, c, rfl, rfl⟩
  | succ n ih =>
    intro o c
    obtain ⟨es, o1, c1, hr, ht⟩ := ih o c
    obtain ⟨es', hr', ht', _, _⟩ := period_run h w d o1 c1
    refine ⟨es ++ es', (o1 ^^^ 1) % 2 ^ BYTE, 0, ?_, ?_⟩
    · rw [Nat.mul_succ]
      exact run_add h _ _ _ _ _ _ _ hr hr'
    · rw [toggles_append, ht, ht']

/-- The run of `main` from its entry: after the two initial statements the invariant
of the `for` loop holds of the rest of the log. -/
theorem main_run (h : Header) (w d o c n : Nat) :
    ∃ es s, run h (n + 2) (initial w d o c) =
        some (Event.write Loc.WDTCTL ((h.WDTPW + h.WDTHOLD) % 2 ^ WORD) ::
          Event.write Loc.P1DIR 1 :: es, s) ∧
      BodyInv ((h.WDTPW + h.WDTHOLD) % 2 ^ WORD) 1 o es s := by
  obtain ⟨es, s, hr, hinv⟩ := body_run h ((h.WDTPW + h.WDTHOLD) % 2 ^ WORD) 1 o c n
  have h1 := run_add h 1 n _ _ _ _ _
    (run_one h _ _ _ (step_dir h ((h.WDTPW + h.WDTHOLD) % 2 ^ WORD) d o c)) hr
  have h2 := run_add h 1 (1 + n) _ _ _ _ _ (run_one h _ _ _ (step_wdt h w d o c)) h1
  have hn : 1 + (1 + n) = n + 2 := by omega
  rw [hn] at h2
  exact ⟨es, s, h2, hinv⟩

theorem step_eq_none_iff (h : Header) (s : State) : step h s = none ↔ s.pc = PC.ret := by
  obtain ⟨pc, w, d, o, c⟩ := s
  cases pc <;> simp [step]

/-! ## Two runs side by side -/

theorem sim_step (h : Header) (s1 s2 : State) (hs : Sim s1 s2) :
    ∃ es1 t1 es2 t2, step h s1 = some (es1, t1) ∧ step h s2 = some (es2, t2) ∧
      Sim t1 t2 ∧ es1.map Event.shape = es2.map Event.shape ∧
      es1.filter (fun e => decide (e.loc ≠ Loc.P1OUT)) =
        es2.filter (fun e => decide (e.loc ≠ Loc.P1OUT)) ∧
      (s1.P1OUT = s2.P1OUT → t1.P1OUT = t2.P1OUT ∧ es1 = es2) := by
  obtain ⟨pc1, w1, d1, o1, c1⟩ := s1
  obtain ⟨pc2, w2, d2, o2, c2⟩ := s2
  obtain ⟨hpc, hret, hi⟩ := hs
  simp only at hpc hret hi
  subst hpc
  cases pc1 with
  | wdt =>
    exact ⟨_, _, _, _, step_wdt h w1 d1 o1 c1, step_wdt h w2 d2 o2 c2,
      ⟨rfl, by simp, by simp⟩, rfl, rfl, fun ho => ⟨ho, rfl⟩⟩
  | dir =>
    exact ⟨_, _, _, _, step_dir h w1 d1 o1 c1, step_dir h w2 d2 o2 c2,
      ⟨rfl, by simp, by simp⟩, rfl, rfl, fun ho => ⟨ho, rfl⟩⟩
  | toggle =>
    refine ⟨_, _, _, _, step_toggle h w1 d1 o1 c1, step_toggle h w2 d2 o2 c2,
      ⟨rfl, by simp, by simp⟩, rfl, rfl, ?_⟩
    intro ho
    simp only at ho
    subst ho
    exact ⟨rfl, rfl⟩
  | init =>
    exact ⟨_, _, _, _, step_init h w1 d1 o1 c1, step_init h w2 d2 o2 c2,
      ⟨rfl, by simp, by simp⟩, rfl, rfl, fun ho => ⟨ho, rfl⟩⟩
  | dec =>
    have hc : c1 = c2 := hi (Or.inl rfl)
    subst hc
    exact ⟨_, _, _, _, step_dec h w1 d1 o1 c1, step_dec h w2 d2 o2 c1,
      ⟨rfl, by simp, by simp⟩, rfl, rfl, fun ho => ⟨ho, rfl⟩⟩
  | test =>
    have hc : c1 = c2 := hi (Or.inr rfl)
    subst hc
    refine ⟨_, _, _, _, step_test h w1 d1 o1 c1, step_test h w2 d2 o2 c1,
      ⟨rfl, ?_, by simp⟩, rfl, rfl, fun ho => ⟨ho, rfl⟩⟩
    by_cases hc0 : c1 = 0
    · simp [hc0]
    · simp [hc0]
  | ret => exact absurd rfl hret

theorem sim_run (h : Header) (a b : State) (hs : Sim a b) (n : Nat) :
    ∃ es1 s1 es2 s2, run h n a = some (es1, s1) ∧ run h n b = some (es2, s2) ∧
      Sim s1 s2 ∧ es1.map Event.shape = es2.map Event.shape ∧
      es1.filter (fun e => decide (e.loc ≠ Loc.P1OUT)) =
        es2.filter (fun e => decide (e.loc ≠ Loc.P1OUT)) ∧
      (a.P1OUT = b.P1OUT → s1.P1OUT = s2.P1OUT ∧ es1 = es2) := by
  induction n with
  | zero => exact ⟨[], a, [], b, rfl, rfl, hs, rfl, rfl, fun ho => ⟨ho, rfl⟩⟩
  | succ n ih =>
    obtain ⟨es1, s1, es2, s2, hr1, hr2, hsim, hmap, hfil, ho⟩ := ih
    obtain ⟨e1, t1, e2, t2, hs1, hs2, hsim', hmap', hfil', ho'⟩ := sim_step h s1 s2 hsim
    refine ⟨es1 ++ e1, t1, es2 ++ e2, t2,
      run_add h n 1 a s1 t1 es1 e1 hr1 (run_one h s1 e1 t1 hs1),
      run_add h n 1 b s2 t2 es2 e2 hr2 (run_one h s2 e2 t2 hs2), hsim', ?_, ?_, ?_⟩
    · rw [List.map_append, List.map_append, hmap, hmap']
    · rw [List.filter_append, List.filter_append, hfil, hfil']
    · intro hab
      obtain ⟨hp, hes⟩ := ho hab
      obtain ⟨hp', hes'⟩ := ho' hp
      exact ⟨hp', by rw [hes, hes']⟩

/-- After the watchdog write: `WDTCTL` keeps its value and is not written again. -/
theorem after_wdt (h : Header) (v d o c n : Nat) :
    ∃ es s, run h n ⟨PC.dir, v, d, o, c⟩ = some (es, s) ∧
      countWrites Loc.WDTCTL es = 0 ∧ s.WDTCTL = v ∧ s.pc ≠ PC.ret := by
  cases n with
  | zero => exact ⟨[], _, rfl, rfl, rfl, by simp⟩
  | succ k =>
    obtain ⟨es, s, hr, hpc, hw, _, hcw, _, _, _, _⟩ := body_run h v 1 o c k
    have h1 := run_add h 1 k _ _ _ _ _ (run_one h _ _ _ (step_dir h v d o c)) hr
    rw [Nat.add_comm] at h1
    refine ⟨_, s, h1, countWrites_snoc _ _ _ _ _ rfl hcw, hw, ?_⟩
    rcases hpc with hp | hp | hp | hp <;> rw [hp] <;> decide

/-- No run of `main` stops, and none reaches the closing brace. -/
theorem main_run_ne_ret (h : Header) (w d o c n : Nat) :
    ∃ es s, run h n (initial w d o c) = some (es, s) ∧ s.pc ≠ PC.ret := by
  cases n with
  | zero => exact ⟨[], _, rfl, by simp [initial]⟩
  | succ k =>
    obtain ⟨es, s, hr, _, _, hret⟩ :=
      after_wdt h ((h.WDTPW + h.WDTHOLD) % 2 ^ WORD) d o c k
    have h1 := run_add h 1 k _ _ _ _ _ (run_one h _ _ _ (step_wdt h w d o c)) hr
    rw [Nat.add_comm] at h1
    exact ⟨_, s, h1, hret⟩

/-- States of `main` at the toggle satisfy the invariant of the `for` loop. -/
theorem main_run_at_toggle (h : Header) (w d o c n : Nat) (es : List Event) (s : State)
    (hr : run h n (initial w d o c) = some (es, s)) (hpc : s.pc = PC.toggle) :
    ∃ es', BodyInv ((h.WDTPW + h.WDTHOLD) % 2 ^ WORD) 1 o es' s := by
  rcases n with _ | _ | k
  · simp only [run, Option.some.injEq, Prod.mk.injEq] at hr
    rw [← hr.2] at hpc
    simp [initial] at hpc
  · have h1 : run h (0 + 1) (initial w d o c) = _ := run_one h _ _ _ (step_wdt h w d o c)
    rw [h1] at hr
    simp only [Option.some.injEq, Prod.mk.injEq] at hr
    rw [← hr.2] at hpc
    simp at hpc
  · obtain ⟨es', s', hr', hinv⟩ := main_run h w d o c k
    rw [hr] at hr'
    simp only [Option.some.injEq, Prod.mk.injEq] at hr'
    rw [hr'.2]
    exact ⟨es', hinv⟩

theorem testBit_xor_one_zero (v : Nat) : (v ^^^ 1).testBit 0 = !v.testBit 0 := by
  rw [Nat.testBit_xor]
  simp

theorem testBit_xor_bit_succ (v b k : Nat) (hb : b < 2) (hk : 1 ≤ k) :
    (v ^^^ b).testBit k = v.testBit k := by
  have h2 : (2 : Nat) ≤ 2 ^ k := by
    calc (2 : Nat) = 2 ^ 1 := by norm_num
      _ ≤ 2 ^ k := Nat.pow_le_pow_right (by norm_num) hk
  rw [Nat.testBit_xor, Nat.testBit_eq_false_of_lt (lt_of_lt_of_le hb h2)]
  simp

/-- After the two initial statements and `n` passes the program is at the toggle
with `n` toggles in the log. -/
theorem main_run_periods (h : Header) (w d o c n : Nat) :
    ∃ es s, run h (2 + PERIOD * n) (initial w d o c) = some (es, s) ∧
      s.pc = PC.toggle ∧ toggles es = n := by
  obtain ⟨es, o', c', hr, ht⟩ :=
    periods_run h ((h.WDTPW + h.WDTHOLD) % 2 ^ WORD) 1 n o c
  have h1 := run_add h 1 _ _ _ _ _ _
    (run_one h _ _ _ (step_dir h ((h.WDTPW + h.WDTHOLD) % 2 ^ WORD) d o c)) hr
  have h2 := run_add h 1 _ _ _ _ _ _ (run_one h _ _ _ (step_wdt h w d o c)) h1
  have hn : 1 + (1 + PERIOD * n) = 2 + PERIOD * n := by omega
  rw [hn] at h2
  refine ⟨_, _, h2, rfl, ?_⟩
  rw [toggles_append, toggles_append, ht]
  show 0 + (0 + n) = n
  omega

/-- In every state of a run of `main` started with an 8-bit `P1OUT = o`, `P1OUT` is
`o` with bit 0 flipped as many times as the log has toggles. -/
theorem main_run_parity (h : Header) (w d o c n : Nat) (ho : o < 2 ^ BYTE) :
    ∃ es s, run h n (initial w d o c) = some (es, s) ∧
      s.P1OUT = o ^^^ (toggles es % 2) := by
  rcases n with _ | _ | k
  · exact ⟨[], _, rfl, (Nat.xor_zero o).symm⟩
  · exact ⟨_, _, run_one h _ _ _ (step_wdt h w d o c), (Nat.xor_zero o).symm⟩
  · obtain ⟨es, s, hr, _, _, _, _, _, _, _, hp⟩ := main_run h w d o c k
    exact ⟨_, s, hr, hp ho⟩

/-- Two toggles in a row give back an 8-bit value. -/
theorem toggle_twice (v : Nat) (hv : v < 2 ^ BYTE) :
    ((v ^^^ 1) % 2 ^ BYTE ^^^ 1) % 2 ^ BYTE = v := by
  have h1 : v ^^^ 1 < 2 ^ BYTE := Nat.xor_lt_two_pow hv (by simp [BYTE])
  rw [toggle_byte v hv, toggle_byte _ h1, Nat.xor_assoc, Nat.xor_self, Nat.xor_zero]

/-- The first five statements of `main`. -/
theorem first_five (h : Header) (w d o c : Nat) :
    run h 5 (initial w d o c) =
      some ([Event.write Loc.WDTCTL ((h.WDTPW + h.WDTHOLD) % 2 ^ WORD),
          Event.write Loc.P1DIR 1,
          Event.read Loc.P1OUT o, Event.write Loc.P1OUT ((o ^^^ 1) % 2 ^ BYTE),
          Event.write Loc.i 50000,
          Event.read Loc.i 50000, Event.write Loc.i 49999],
        ⟨PC.test, (h.WDTPW + h.WDTHOLD) % 2 ^ WORD, 1, (o ^^^ 1) % 2 ^ BYTE, 49999⟩) := by
  have hd : (50000 + 2 ^ WORD - 1) % 2 ^ WORD = 49999 := by decide
  have h3 := run_one h _ _ _
    (step_dec h ((h.WDTPW + h.WDTHOLD) % 2 ^ WORD) 1 ((o ^^^ 1) % 2 ^ BYTE) 50000)
  rw [hd] at h3
  have h4 := run_add h 1 1 _ _ _ _ _ (run_one h _ _ _
    (step_init h ((h.WDTPW + h.WDTHOLD) % 2 ^ WORD) 1 ((o ^^^ 1) % 2 ^ BYTE) c)) h3
  have h5 := run_add h 1 (1 + 1) _ _ _ _ _ (run_one h _ _ _
    (step_toggle h ((h.WDTPW + h.WDTHOLD) % 2 ^ WORD) 1 o c)) h4
  have h6 := run_add h 1 (1 + (1 + 1)) _ _ _ _ _ (run_one h _ _ _
    (step_dir h ((h.WDTPW + h.WDTHOLD) % 2 ^ WORD) d o c)) h5
  have h7 := run_add h 1 (1 + (1 + (1 + 1))) _ _ _ _ _ (run_one h _ _ _
    (step_wdt h w d o c)) h6
  exact h7

/-! ## The claims -/

/-- C1: the first access of `main` is the write of `WDTPW + WDTHOLD` to `WDTCTL` (so it
precedes every write to `P1DIR` and `P1OUT`), the rest of the log has no write to
`WDTCTL`, and after one or more statements `WDTCTL` holds the value written. -/
theorem C1_watchdog_hold_first_and_only (h : Header) (w d o c n : Nat) :
    ∃ es s, run h (n + 1) (initial w d o c) =
        some (Event.write Loc.WDTCTL ((h.WDTPW + h.WDTHOLD) % 2 ^ WORD) :: es, s) ∧
      countWrites Loc.WDTCTL es = 0 ∧
      s.WDTCTL = (h.WDTPW + h.WDTHOLD) % 2 ^ WORD := by
  obtain ⟨es, s, hr, hcw, hw, _⟩ :=
    after_wdt h ((h.WDTPW + h.WDTHOLD) % 2 ^ WORD) d o c n
  have h1 := run_add h 1 n _ _ _ _ _ (run_one h _ _ _ (step_wdt h w d o c)) hr
  rw [Nat.add_comm] at h1
  exact ⟨es, s, h1, hcw, hw⟩

/-- C2: whatever `P1DIR` held before, the second access of `main` writes `0x01` to it;
after two or more statements `P1DIR = 0x01` (bit 0 set, every other bit clear) and the
rest of the log has no write to `P1DIR`. -/
theorem C2_p1dir_single_output_pin (h : Header) (w d o c n : Nat) :
    ∃ es s, run h (n + 2) (initial w d o c) =
        some (Event.write Loc.WDTCTL ((h.WDTPW + h.WDTHOLD) % 2 ^ WORD) ::
          Event.write Loc.P1DIR 0x01 :: es, s) ∧
      s.P1DIR = 0x01 ∧ countWrites Loc.P1DIR es = 0 ∧
      s.P1DIR.testBit 0 = true ∧ (∀ k, 1 ≤ k → s.P1DIR.testBit k = false) := by
  obtain ⟨es, s, h2, _, _, hd, _, hcd, _, _, _⟩ := main_run h w d o c n
  refine ⟨es, s, h2, hd, hcd, ?_, ?_⟩
  · rw [hd]
    decide
  · intro k hk
    rw [hd]
    exact Nat.testBit_eq_false_of_lt (Nat.one_lt_two_pow (by omega))

/-- C3: in every state of `main` at the toggle, entered with an 8-bit `P1OUT`, the
statement reads `P1OUT = v` (8 bits) and writes back `v XOR 0x01`: bit 0 inverted, every
other bit unchanged, nothing else modified; and the mask is the content of `P1DIR`. -/
theorem C3_toggle_flips_the_output_pin (h : Header) (w d o c n : Nat) (es : List Event)
    (s : State) (ho : o < 2 ^ BYTE) (hr : run h n (initial w d o c) = some (es, s))
    (hpc : s.pc = PC.toggle) :
    s.P1OUT < 2 ^ BYTE ∧
    step h s =
      some ([Event.read Loc.P1OUT s.P1OUT, Event.write Loc.P1OUT (s.P1OUT ^^^ 0x01)],
        ⟨PC.init, s.WDTCTL, s.P1DIR, s.P1OUT ^^^ 0x01, s.i⟩) ∧
    (s.P1OUT ^^^ 0x01).testBit 0 = !s.P1OUT.testBit 0 ∧
    (∀ k, 1 ≤ k → (s.P1OUT ^^^ 0x01).testBit k = s.P1OUT.testBit k) ∧
    s.P1DIR = 0x01 ∧ s.P1OUT ^^^ 0x01 = s.P1OUT ^^^ s.P1DIR := by
  obtain ⟨es', _, _, hd, _, _, _, _, hp⟩ := main_run_at_toggle h w d o c n es s hr hpc
  have hlt : s.P1OUT < 2 ^ BYTE := by
    rw [hp ho]
    exact xor_parity_lt o _ ho
  obtain ⟨pc, w', d', p, c'⟩ := s
  simp only at hpc hd hlt ⊢
  subst hpc hd
  refine ⟨hlt, ?_, testBit_xor_one_zero p, ?_, rfl, rfl⟩
  · rw [step_toggle, toggle_byte p hlt]
  · intro k hk
    exact testBit_xor_bit_succ p 1 k (by decide) hk

/-- Witness for C3: the first toggle of a run started with `P1OUT = 0xA4`. -/
theorem C3_toggle_flips_the_output_pin_witness :
    (0xA4 < 2 ^ BYTE ∧
      run msp430g2553 2 (initial 0 0 0xA4 7) =
        some ([Event.write Loc.WDTCTL 0x5A80, Event.write Loc.P1DIR 1],
          ⟨PC.toggle, 0x5A80, 1, 0xA4, 7⟩)) ∧
    ((0xA4 : Nat) < 2 ^ BYTE ∧
    step msp430g2553 ⟨PC.toggle, 0x5A80, 1, 0xA4, 7⟩ =
      some ([Event.read Loc.P1OUT 0xA4, Event.write Loc.P1OUT (0xA4 ^^^ 0x01)],
        ⟨PC.init, 0x5A80, 1, 0xA4 ^^^ 0x01, 7⟩) ∧
    (0xA4 ^^^ 0x01).testBit 0 = !(0xA4 : Nat).testBit 0 ∧
    (∀ k, 1 ≤ k → (0xA4 ^^^ 0x01).testBit k = (0xA4 : Nat).testBit k) ∧
    (1 : Nat) = 0x01 ∧ 0xA4 ^^^ 0x01 = 0xA4 ^^^ 1) :=
  ⟨⟨by decide, by decide⟩,
    C3_toggle_flips_the_output_pin msp430g2553 0 0 0xA4 7 2
      [Event.write Loc.WDTCTL 0x5A80, Event.write Loc.P1DIR 1]
      ⟨PC.toggle, 0x5A80, 1, 0xA4, 7⟩ (by decide) (by decide) rfl⟩

/-- C4: the assignment `i = 50000` stores 50000 unchanged in the 16-bit counter; from
there the delay loop is left after exactly `2 * 50000` statements (not before), with
`i = 0`, 50000 writes to `i` (the decrements) and no write to `P1OUT`, `P1DIR` or
`WDTCTL`, whose contents are unchanged. This holds from every state at the assignment,
so the count is the same in every pass. -/
theorem C4_fixed_delay_of_50000_spins (h : Header) (w d o c : Nat) :
    50000 % 2 ^ WORD = 50000 ∧
    step h ⟨PC.init, w, d, o, c⟩ =
      some ([Event.write Loc.i 50000], ⟨PC.dec, w, d, o, 50000⟩) ∧
    (∃ es, run h (2 * 50000) ⟨PC.dec, w, d, o, 50000⟩ =
        some (es, ⟨PC.toggle, w, d, o, 0⟩) ∧
      countWrites Loc.i es = 50000 ∧ countWrites Loc.P1OUT es = 0 ∧
      countWrites Loc.P1DIR es = 0 ∧ countWrites Loc.WDTCTL es = 0) ∧
    (∀ m, m < 2 * 50000 → ∃ es s, run h m ⟨PC.dec, w, d, o, 50000⟩ = some (es, s) ∧
      (s.pc = PC.dec ∨ s.pc = PC.test)) := by
  have h5 : (50000 : Nat) < 2 ^ WORD := by simp [WORD]
  refine ⟨by simp [WORD], step_init h w d o c, ?_, ?_⟩
  · obtain ⟨es, hr, hcnt, hall⟩ := delay_run h w d o 50000 h5
    rw [spins_50000] at hr hcnt
    exact ⟨es, hr, hcnt, countWrites_of_all_i es hall _ (by decide),
      countWrites_of_all_i es hall _ (by decide), countWrites_of_all_i es hall _ (by decide)⟩
  · intro m hm
    obtain ⟨es, s, hr, hpc, _⟩ :=
      delay_inside h w d o 50000 h5 m (by rw [spins_50000]; exact hm)
    exact ⟨es, s, hr, hpc⟩

/-- C5: `main` never returns: a statement can execute only away from the closing
brace, every run of any length exists and ends away from it with a next statement to
execute; and for every `n`, after `2 + PERIOD * n` statements the program is again at the
toggle, with exactly `n` toggles of `P1OUT` in the log. -/
theorem C5_blink_loop_never_terminates (h : Header) (w d o c n : Nat) :
    (∀ s, step h s = none ↔ s.pc = PC.ret) ∧
    (∃ es s, run h n (initial w d o c) = some (es, s) ∧ s.pc ≠ PC.ret ∧
      (step h s).isSome = true) ∧
    (∃ es s, run h (2 + PERIOD * n) (initial w d o c) = some (es, s) ∧
      s.pc = PC.toggle ∧ toggles es = n) := by
  refine ⟨step_eq_none_iff h, ?_, ?_⟩
  · obtain ⟨es, s, hr, hret⟩ := main_run_ne_ret h w d o c n
    refine ⟨es, s, hr, hret, ?_⟩
    cases hs : step h s with
    | none => exact absurd ((step_eq_none_iff h s).mp hs) hret
    | some p => rfl
  · exact main_run_periods h w d o c n

/-- C6 (as stated, refuted): the first statement of `main` writes `WDTCTL`, a
location that is none of `P1DIR`, `P1OUT` and `i`. -/
theorem C6_counterexample_wdtctl_written :
    ∃ es s e, run msp430g2553 1 (initial 0 0 0 0) = some (es, s) ∧ e ∈ es ∧
      e.isWrite = true ∧ e.loc ∉ [Loc.P1DIR, Loc.P1OUT, Loc.i] :=
  ⟨[Event.write Loc.WDTCTL 0x5A80], ⟨PC.dir, 0x5A80, 0, 0, 0⟩,
    Event.write Loc.WDTCTL 0x5A80, by decide, by simp, rfl, by decide⟩

/-- C6 (amended): the locations `main` accesses are the three registers `WDTCTL`,
`P1DIR`, `P1OUT` and the counter `i`. Every access of every run is to one of these
four; `WDTCTL` and `P1DIR` are each written once, by the first two statements, and
never read; `P1OUT` and `i` are both read and written, as the first five statements
already show. -/
theorem C6_locations_accessed_by_main (h : Header) (w d o c n : Nat) :
    (∃ es s, run h (n + 2) (initial w d o c) =
        some (Event.write Loc.WDTCTL ((h.WDTPW + h.WDTHOLD) % 2 ^ WORD) ::
          Event.write Loc.P1DIR 0x01 :: es, s) ∧
      countWrites Loc.WDTCTL es = 0 ∧ countReads Loc.WDTCTL es = 0 ∧
      countWrites Loc.P1DIR es = 0 ∧ countReads Loc.P1DIR es = 0 ∧
      es.all (fun e => decide (e.loc ∈ [Loc.WDTCTL, Loc.P1DIR, Loc.P1OUT, Loc.i])) = true) ∧
    run h 5 (initial w d o c) =
      some ([Event.write Loc.WDTCTL ((h.WDTPW + h.WDTHOLD) % 2 ^ WORD),
          Event.write Loc.P1DIR 0x01,
          Event.read Loc.P1OUT o, Event.write Loc.P1OUT ((o ^^^ 0x01) % 2 ^ BYTE),
          Event.write Loc.i 50000,
          Event.read Loc.i 50000, Event.write Loc.i 49999],
        ⟨PC.test, (h.WDTPW + h.WDTHOLD) % 2 ^ WORD, 0x01, (o ^^^ 0x01) % 2 ^ BYTE, 49999⟩) := by
  refine ⟨?_, first_five h w d o c⟩
  obtain ⟨es, s, hr, _, _, _, h1, h2, h3, h4, _⟩ := main_run h w d o c n
  refine ⟨es, s, hr, h1, h3, h2, h4, ?_⟩
  rw [List.all_eq_true]
  intro e _
  cases e with
  | read l v => cases l <;> simp [Event.loc]
  | write l v => cases l <;> simp [Event.loc]

/-- C7: two runs of `main` of the same length from arbitrary contents of the registers
and of `i` both exist (no statement fails), are at the same statement, and their logs
have the same accesses in the same order (kind and location); the values agree on every
access that is not to `P1OUT`; and when the two initial values of `P1OUT` agree the logs
are equal. -/
theorem C7_register_writes_unconditional (h : Header)
    (w1 d1 o1 c1 w2 d2 o2 c2 n : Nat) :
    ∃ es1 s1 es2 s2,
      run h n (initial w1 d1 o1 c1) = some (es1, s1) ∧
      run h n (initial w2 d2 o2 c2) = some (es2, s2) ∧
      s1.pc = s2.pc ∧
      es1.map Event.shape = es2.map Event.shape ∧
      es1.filter (fun e => decide (e.loc ≠ Loc.P1OUT)) =
        es2.filter (fun e => decide (e.loc ≠ Loc.P1OUT)) ∧
      (o1 = o2 → es1 = es2) := by
  obtain ⟨es1, s1, es2, s2, hr1, hr2, hsim, hmap, hfil, ho⟩ :=
    sim_run h (initial w1 d1 o1 c1) (initial w2 d2 o2 c2)
      ⟨rfl, by simp [initial], by simp [initial]⟩ n
  exact ⟨es1, s1, es2, s2, hr1, hr2, hsim.1, hmap, hfil, fun hab => (ho hab).2⟩

/-- C8: in a run of `main` started with an 8-bit `P1OUT = p0`, every state has
`P1OUT = p0 XOR (t mod 2)` where `t` is the number of toggles in the log, so bits 1 and
up are those of `p0`; for every `n` the state after `n` completed passes has
`P1OUT = p0 XOR (n mod 2)`; and two passes in a row restore `P1OUT` exactly. -/
theorem C8_led_phase_relative_to_initial (h : Header) (w d p0 c n : Nat)
    (hp : p0 < 2 ^ BYTE) :
    (∃ es s, run h n (initial w d p0 c) = some (es, s) ∧
      s.P1OUT = p0 ^^^ (toggles es % 2) ∧
      (∀ k, 1 ≤ k → s.P1OUT.testBit k = p0.testBit k)) ∧
    (∃ es s, run h (2 + PERIOD * n) (initial w d p0 c) = some (es, s) ∧
      toggles es = n ∧ s.P1OUT = p0 ^^^ (n % 2)) ∧
    (∃ es, run h (PERIOD + PERIOD) ⟨PC.toggle, w, d, p0, c⟩ =
        some (es, ⟨PC.toggle, w, d, p0, 0⟩) ∧ toggles es = 2) := by
  refine ⟨?_, ?_, ?_⟩
  · obtain ⟨es, s, hr, hpar⟩ := main_run_parity h w d p0 c n hp
    refine ⟨es, s, hr, hpar, ?_⟩
    intro k hk
    rw [hpar]
    exact testBit_xor_bit_succ p0 _ k (Nat.mod_lt _ (by decide)) hk
  · obtain ⟨es, s, hr, _, ht⟩ := main_run_periods h w d p0 c n
    obtain ⟨es', s', hr', hpar⟩ := main_run_parity h w d p0 c (2 + PERIOD * n) hp
    rw [hr] at hr'
    simp only [Option.some.injEq, Prod.mk.injEq] at hr'
    obtain ⟨rfl, rfl⟩ := hr'
    exact ⟨es, s, hr, ht, by rw [hpar, ht]⟩
  · obtain ⟨es1, hr1, ht1, _, _⟩ := period_run h w d p0 c
    obtain ⟨es2, hr2, ht2, _, _⟩ := period_run h w d ((p0 ^^^ 1) % 2 ^ BYTE) 0
    rw [toggle_twice p0 hp] at hr2
    exact ⟨es1 ++ es2, run_add h _ _ _ _ _ _ _ hr1 hr2, by rw [toggles_append, ht1, ht2]⟩

/-- Witness for C8 at `p0 = 0xA4`, `n = 3`. -/
theorem C8_led_phase_relative_to_initial_witness :
    0xA4 < 2 ^ BYTE ∧
    ((∃ es s, run msp430g2553 3 (initial 0 0 0xA4 7) = some (es, s) ∧
      s.P1OUT = 0xA4 ^^^ (toggles es % 2) ∧
      (∀ k, 1 ≤ k → s.P1OUT.testBit k = (0xA4 : Nat).testBit k)) ∧
    (∃ es s, run msp430g2553 (2 + PERIOD * 3) (initial 0 0 0xA4 7) = some (es, s) ∧
      toggles es = 3 ∧ s.P1OUT = 0xA4 ^^^ (3 % 2)) ∧
    (∃ es, run msp430g2553 (PERIOD + PERIOD) ⟨PC.toggle, 0, 0, 0xA4, 7⟩ =
        some (es, ⟨PC.toggle, 0, 0, 0xA4, 0⟩) ∧ toggles es = 2)) :=
  ⟨by decide, C8_led_phase_relative_to_initial msp430g2553 0 0 0xA4 7 3 (by decide)⟩

/-- C9: with `WDTPW = 0x5A00` and `WDTHOLD = 0x0080` the two constants share no bit,
so their sum equals their bitwise or, `0x5A80`, without carry and within 16 bits (and
within a 16-bit signed `int`); that is the value the first statement writes: upper
byte `0x5A`, bit 7 set, and nothing else in the lower byte. -/
theorem C9_watchdog_command_exact (w d o c : Nat) :
    msp430g2553.WDTPW = 0x5A00 ∧ msp430g2553.WDTHOLD = 0x0080 ∧
    msp430g2553.WDTPW &&& msp430g2553.WDTHOLD = 0 ∧
    msp430g2553.WDTPW + msp430g2553.WDTHOLD = msp430g2553.WDTPW ||| msp430g2553.WDTHOLD ∧
    msp430g2553.WDTPW + msp430g2553.WDTHOLD = 0x5A80 ∧
    msp430g2553.WDTPW + msp430g2553.WDTHOLD < 2 ^ (WORD - 1) ∧
    (msp430g2553.WDTPW + msp430g2553.WDTHOLD) % 2 ^ WORD =
      msp430g2553.WDTPW + msp430g2553.WDTHOLD ∧
    step msp430g2553 (initial w d o c) =
      some ([Event.write Loc.WDTCTL 0x5A80], ⟨PC.dir, 0x5A80, d, o, c⟩) ∧
    (msp430g2553.WDTPW + msp430g2553.WDTHOLD) / 2 ^ 8 = 0x5A ∧
    (msp430g2553.WDTPW + msp430g2553.WDTHOLD).testBit 7 = true ∧
    (msp430g2553.WDTPW + msp430g2553.WDTHOLD) % 2 ^ 8 = 2 ^ 7 := by
  refine ⟨rfl, rfl, by decide, by decide, by decide, by decide, by decide, rfl,
    by decide, by decide, by decide⟩

/-- C10: entered with `i = n`, a 16-bit value, the delay loop is left with `i = 0`
after exactly `n` decrements when `n` is in `1..65535` and exactly 65536 when `n = 0`
(the first decrement takes 0 to 65535); it is not left earlier, and the counter stays
below `2 ^ 16` on the way. -/
theorem C10_delay_loop_from_any_start (h : Header) (w d o n : Nat) (hn : n < 2 ^ WORD) :
    (∃ es, run h (2 * (if n = 0 then 2 ^ WORD else n)) ⟨PC.dec, w, d, o, n⟩ =
        some (es, ⟨PC.toggle, w, d, o, 0⟩) ∧
      countWrites Loc.i es = (if n = 0 then 2 ^ WORD else n)) ∧
    (∀ m, m < 2 * (if n = 0 then 2 ^ WORD else n) →
      ∃ es s, run h m ⟨PC.dec, w, d, o, n⟩ = some (es, s) ∧
        (s.pc = PC.dec ∨ s.pc = PC.test) ∧ s.i < 2 ^ WORD) ∧
    step h ⟨PC.dec, w, d, o, 0⟩ =
      some ([Event.read Loc.i 0, Event.write Loc.i 65535], ⟨PC.test, w, d, o, 65535⟩) ∧
    (2 : Nat) ^ WORD = 65536 := by
  refine ⟨?_, ?_, ?_, by decide⟩
  · obtain ⟨es, hr, hcnt, _⟩ := delay_run h w d o n hn
    exact ⟨es, hr, hcnt⟩
  · intro m hm
    exact delay_inside h w d o n hn m hm
  · rw [step_dec]
    rfl

/-- Witness for C10 at `n = 3`. -/
theorem C10_delay_loop_from_any_start_witness :
    3 < 2 ^ WORD ∧
    ((∃ es, run msp430g2553 (2 * (if 3 = 0 then 2 ^ WORD else 3)) ⟨PC.dec, 0x5A80, 1, 0, 3⟩ =
        some (es, ⟨PC.toggle, 0x5A80, 1, 0, 0⟩) ∧
      countWrites Loc.i es = (if 3 = 0 then 2 ^ WORD else 3)) ∧
    (∀ m, m < 2 * (if 3 = 0 then 2 ^ WORD else 3) →
      ∃ es s, run msp430g2553 m ⟨PC.dec, 0x5A80, 1, 0, 3⟩ = some (es, s) ∧
        (s.pc = PC.dec ∨ s.pc = PC.test) ∧ s.i < 2 ^ WORD) ∧
    step msp430g2553 ⟨PC.dec, 0x5A80, 1, 0, 0⟩ =
      some ([Event.read Loc.i 0, Event.write Loc.i 65535], ⟨PC.test, 0x5A80, 1, 0, 65535⟩) ∧
    (2 : Nat) ^ WORD = 65536) :=
  ⟨by decide, C10_delay_loop_from_any_start msp430g2553 0x5A80 1 0 3 (by decide)⟩

end Msp430Blink
